import Mathlib

/-!
# Verification of the disguise release-notes scraper (`scrape.mjs`)

A shallow embedding of the extraction pipeline of `scrape.mjs`:
the nested-list extractor (`extractTopLevelLis`), the pattern-based entry
extractor (`extractWithRegex`), the orphan-merge pass and page segmentation
of `parseReleasePage`, the content-addressed AI cache (`extractWithAI`),
the startup configuration (`USE_AI`), and the output persistence of `main`.

HTML is modelled as `List Char`; the JavaScript regular-expression scans are
embedded as explicit character-level scanners with the same matching
semantics.  All recursion is structural (fuel-based where the source loops
advance a cursor), so every definition evaluates by kernel reduction.
-/

set_option autoImplicit false
set_option maxRecDepth 100000

namespace Scrape

/-! ## Character-level helpers (the Text Normalizer of the spec) -/

/-- The whitespace class used by JavaScript `\s` and `String.trim`
(restricted to the code points that occur in release-note pages). -/
def jsIsWs (c : Char) : Bool :=
  c = ' ' || c = '\t' || c = '\n' || c = '\r' || c = '\x0b' || c = '\x0c' || c = '\u00A0'

/-- Character class of the separator-trimming regexes in `extractWithRegex`
(line 274: leading and trailing runs of these characters are removed from a
description after ticket ids are deleted). -/
def isSepChar (c : Char) : Bool :=
  c = '-' || c = '–' || c = '—' || c = ':' || c = ',' || c = '.' || c = '&' || c = '/' || jsIsWs c

/-- Index of the first `'>'` in a character list, if any. -/
def gtIndex : List Char → Option Nat
  | [] => none
  | c :: rest => if c = '>' then some 0 else (gtIndex rest).map (· + 1)

/-- Case-sensitive test that `needle` begins `hay`. -/
def leadMatch : List Char → List Char → Bool
  | [], _ => true
  | _ :: _, [] => false
  | n :: ns, h :: hs => n = h && leadMatch ns hs

/-- Case-insensitive (ASCII lower-casing, as JavaScript `/i`) test that
`needle` begins `hay`. -/
def leadMatchCi : List Char → List Char → Bool
  | [], _ => true
  | _ :: _, [] => false
  | n :: ns, h :: hs => n.toLower = h.toLower && leadMatchCi ns hs

/-- First position `≥ i` where `needle` occurs case-sensitively in `cs`
(the semantics of `String.prototype.indexOf`).  `fuel` bounds the scan. -/
def indexOfFrom (cs needle : List Char) : Nat → Nat → Option Nat
  | 0, _ => none
  | f + 1, i =>
    if leadMatch needle (cs.drop i) then some i
    else if i < cs.length then indexOfFrom cs needle f (i + 1)
    else none

/-- First position `≥ i` where `needle` occurs case-insensitively in `cs`. -/
def indexOfCiFrom (cs needle : List Char) : Nat → Nat → Option Nat
  | 0, _ => none
  | f + 1, i =>
    if leadMatchCi needle (cs.drop i) then some i
    else if i < cs.length then indexOfCiFrom cs needle f (i + 1)
    else none

/-- One global, left-to-right, non-overlapping replacement pass: the
semantics of `s.replace(/LITERAL/g, repl)` for a literal pattern. -/
def replaceAllGo (needle repl : List Char) : Nat → List Char → List Char
  | _, [] => []
  | 0, hay => hay
  | f + 1, c :: rest =>
    if leadMatch needle (c :: rest) then
      repl ++ replaceAllGo needle repl f ((c :: rest).drop needle.length)
    else
      c :: replaceAllGo needle repl f rest

def replaceAll (needle repl hay : List Char) : List Char :=
  replaceAllGo needle repl hay.length hay

/-- `decodeEntities` (scrape.mjs lines 181–188): the fixed chain of entity
replacements, in source order. -/
def decodeEntities (s : List Char) : List Char :=
  replaceAll "&nbsp;".data " ".data <|
  replaceAll "&#39;".data "'".data <|
  replaceAll "&quot;".data "\"".data <|
  replaceAll "&gt;".data ">".data <|
  replaceAll "&#x3E;".data ">".data <|
  replaceAll "&lt;".data "<".data <|
  replaceAll "&#x3C;".data "<".data <|
  replaceAll "&amp;".data "&".data <|
  replaceAll "&#x26;".data "&".data s

/-- Tag stripping, the semantics of `.replace(/<[^>]+>/g, "")`: a `<` with a
later `>` and at least one character in between is removed together with
everything up to that first `>`. -/
def stripTagsGo : Nat → List Char → List Char
  | 0, hay => hay
  | _ + 1, [] => []
  | f + 1, c :: rest =>
    if c = '<' then
      match gtIndex rest with
      | some k => if 1 ≤ k then stripTagsGo f (rest.drop (k + 1)) else c :: stripTagsGo f rest
      | none => c :: stripTagsGo f rest
    else c :: stripTagsGo f rest

def stripTags (cs : List Char) : List Char :=
  stripTagsGo cs.length cs

/-- JavaScript `String.prototype.trim`. -/
def jsTrim (cs : List Char) : List Char :=
  ((cs.dropWhile jsIsWs).reverse.dropWhile jsIsWs).reverse

/-- ASCII lower-casing of a whole list, as `String.prototype.toLowerCase`
behaves on the ASCII release-note data. -/
def lowerList (cs : List Char) : List Char :=
  cs.map Char.toLower

/-- The per-item text clean-up of `extractWithRegex` line 266:
`decodeEntities(raw.replace(/<[^>]+>/g, "")).trim()`. -/
def cleanText (cs : List Char) : List Char :=
  jsTrim (decodeEntities (stripTags cs))

/-! ## Ticket-identifier extraction (`DSOF-\d+`) -/

/-- Match `DSOF-\d+` at the head of the list: the literal prefix `DSOF-`
followed by a maximal non-empty digit run.  Returns the matched text and
the remainder. -/
def matchDsofAt : List Char → Option (List Char × List Char)
  | 'D' :: 'S' :: 'O' :: 'F' :: '-' :: rest =>
    let ds := rest.takeWhile Char.isDigit
    if ds.isEmpty then none
    else some ('D' :: 'S' :: 'O' :: 'F' :: '-' :: ds, rest.dropWhile Char.isDigit)
  | _ => none

/-- All matches of `/DSOF-\d+/g`, leftmost first, non-overlapping. -/
def dsofScanGo : Nat → List Char → List (List Char)
  | 0, _ => []
  | _ + 1, [] => []
  | f + 1, c :: rest =>
    match matchDsofAt (c :: rest) with
    | some (m, rest') => m :: dsofScanGo f rest'
    | none => dsofScanGo f rest

def dsofScan (cs : List Char) : List (List Char) :=
  dsofScanGo cs.length cs

/-- `text.replace(/DSOF-\d+/g, "")`. -/
def removeDsofGo : Nat → List Char → List Char
  | 0, hay => hay
  | _ + 1, [] => []
  | f + 1, c :: rest =>
    match matchDsofAt (c :: rest) with
    | some (_, rest') => removeDsofGo f rest'
    | none => c :: removeDsofGo f rest

def removeDsof (cs : List Char) : List Char :=
  removeDsofGo cs.length cs

/-- `dsofMatches.join(", ")`. -/
def joinCommaSpace : List (List Char) → List Char
  | [] => []
  | [m] => m
  | m :: rest => m ++ ", ".data ++ joinCommaSpace rest

/-- The description clean-up of `extractWithRegex` lines 272–276 before the
empty-description fallback: ticket ids removed, then leading and trailing
separator runs, then a final trim. -/
def cleanedDesc (text : List Char) : List Char :=
  jsTrim (((removeDsof text).dropWhile isSepChar).reverse.dropWhile isSepChar).reverse

/-- The full description computation including the fallback of line 278:
if the clean-up empties the text, the original item text is used. -/
def descOf (text : List Char) : List Char :=
  let d := cleanedDesc text
  if d.isEmpty then text else d

/-! ## The Nested-List Extractor (`extractTopLevelLis`, lines 192–225)

The source scans the fragment with
`/<(\/?)(?:ul|ol|li)(?:\s[^>]*)?\s*>/gi`, tracking `ul`/`ol` nesting depth.
We embed the regular expression as `matchListTag` and the exec loop as the
character cursor of `lisRun`. -/

/-- The kind of a matched list tag: `ul`/`ol` (both list containers) or
`li`. -/
inductive TKind where
  | list
  | item
deriving DecidableEq, Repr

/-- A successful list-tag match: close flag, tag kind, whether `'>'`
immediately follows the name (so that the lower-cased match text is exactly
the canonical close tag, which is what the source compares against), and
the matched length. -/
structure TagM where
  isClose : Bool
  kind : TKind
  immediate : Bool
  len : Nat
deriving DecidableEq, Repr

/-- Tag-name recognition for `ul`, `ol`, `li` (case-insensitive). -/
def tagKind (a b : Char) : Option TKind :=
  if (a.toLower = 'u' ∧ b.toLower = 'l') ∨ (a.toLower = 'o' ∧ b.toLower = 'l') then some TKind.list
  else if a.toLower = 'l' ∧ b.toLower = 'i' then some TKind.item
  else none

/-- The tail of a tag after its name: the semantics of
`(?:\s[^>]*)?\s*>` (and of `(?:\s[^>]*)?>`, which coincides with it): an
immediate `'>'`, or a whitespace character followed by everything up to the
first `'>'`.  Returns the number of characters consumed. -/
def tagEndLen : List Char → Option Nat
  | [] => none
  | c :: rest =>
    if c = '>' then some 1
    else if jsIsWs c then (gtIndex rest).map (· + 2)
    else none

/-- The tag name and tail after an optional `'/'`. -/
def matchNameEnd (cs : List Char) : Option (TKind × Bool × Nat) :=
  match cs with
  | a :: b :: rest =>
    match tagKind a b with
    | some k => (tagEndLen rest).map (fun n => (k, n = 1, 2 + n))
    | none => none
  | _ => none

/-- One attempted match of the scanning regex of `extractTopLevelLis` at the
head of `cs`. -/
def matchListTag (cs : List Char) : Option TagM :=
  match cs with
  | c :: rest =>
    if c = '<' then
      match rest with
      | '/' :: rest2 => (matchNameEnd rest2).map (fun p => ⟨true, p.1, p.2.1, 2 + p.2.2⟩)
      | _ => (matchNameEnd rest).map (fun p => ⟨false, p.1, p.2.1, 1 + p.2.2⟩)
    else none
  | [] => none

/-- The scanner state of `extractTopLevelLis`: captured items, current
`ul`/`ol` nesting depth, the depth at which the open capture started, the
capture flag, and the characters captured so far (the source keeps a start
index and slices; collecting the same characters directly is equivalent). -/
structure LiState where
  items : List (List Char)
  listDepth : Int
  liDepth : Int
  capturing : Bool
  buf : List Char
deriving DecidableEq, Repr

def initLiState : LiState :=
  ⟨[], 0, 0, false, []⟩

/-- State update for a matched tag whose text is `consumed`.  Mirrors the
branch structure of the source loop: opening `ul`/`ol` tags raise the depth;
close tags are recognised only when the lower-cased match text is exactly
the canonical close tag (`immediate`); a top-level `li` opens the capture;
its matching close `li` at the same depth emits the captured item; every
other matched tag inside an open capture is part of the captured slice. -/
def liTagStep (st : LiState) (m : TagM) (consumed : List Char) : LiState :=
  if ¬m.isClose ∧ m.kind = TKind.list then
    let s1 := if st.capturing then { st with buf := st.buf ++ consumed } else st
    { s1 with listDepth := s1.listDepth + 1 }
  else if m.isClose ∧ m.kind = TKind.list ∧ m.immediate then
    let s1 := if st.capturing then { st with buf := st.buf ++ consumed } else st
    { s1 with listDepth := s1.listDepth - 1 }
  else if ¬m.isClose ∧ m.kind = TKind.item then
    if st.listDepth = 1 ∧ ¬st.capturing then
      { st with capturing := true, liDepth := st.listDepth, buf := [] }
    else if st.capturing then { st with buf := st.buf ++ consumed }
    else st
  else if m.isClose ∧ m.kind = TKind.item ∧ m.immediate then
    if st.capturing ∧ st.listDepth = st.liDepth then
      { st with items := st.items ++ [st.buf], capturing := false, buf := [] }
    else if st.capturing then { st with buf := st.buf ++ consumed }
    else st
  else
    if st.capturing then { st with buf := st.buf ++ consumed } else st

/-- A non-tag character: part of the current slice when a capture is open. -/
def liChrStep (st : LiState) (c : Char) : LiState :=
  if st.capturing then { st with buf := st.buf ++ [c] } else st

/-- The scanning loop of `extractTopLevelLis`.  `fuel ≥ cs.length` makes the
recursion total; every step consumes at least one character. -/
def lisRun : Nat → List Char → LiState → LiState
  | 0, _, st => st
  | _ + 1, [], st => st
  | f + 1, c :: rest, st =>
    match matchListTag (c :: rest) with
    | some m => lisRun f ((c :: rest).drop m.len) (liTagStep st m ((c :: rest).take m.len))
    | none => lisRun f rest (liChrStep st c)

/-- The scanner run with its canonical fuel (the fragment length). -/
def runLis (cs : List Char) (st : LiState) : LiState :=
  lisRun cs.length cs st

/-- `extractTopLevelLis` (lines 192–225): the contents of the list items
that are direct children of the outermost list, nested sub-lists included
verbatim. -/
def extractTopLevelLis (html : String) : List String :=
  ((runLis html.data initLiState).items).map String.mk

/-! ## Entries -/

/-- One extracted change record, as pushed by `extractWithRegex`
(lines 280–287) and by the AI path of `parseReleasePage` (lines 385–394).
The regex path never sets the release metadata fields, the AI path always
does; `none` models the absent properties of the regex-path objects. -/
structure Entry where
  version : String
  category : String
  dsof : String
  description : String
  url : String
  build : Option String := none
  starter_build : Option String := none
  released : Option String := none
deriving DecidableEq, Repr

/-! ## The Pattern-Based Entry Extractor (`extractWithRegex`, lines 227–289) -/

/-- The kind of a top-level block matched by
`/<(ul|ol|p)(?:\s[^>]*)?\s*>/gi`. -/
inductive BlockKind where
  | ul
  | ol
  | p
deriving DecidableEq, Repr

/-- Attempt to match the top-level block-open regex at the head of `cs`;
returns the kind and matched length. -/
def matchBlockOpen (cs : List Char) : Option (BlockKind × Nat) :=
  match cs with
  | '<' :: a :: rest =>
    if a.toLower = 'p' then (tagEndLen rest).map (fun n => (BlockKind.p, 2 + n))
    else
      match rest with
      | b :: rest2 =>
        if a.toLower = 'u' ∧ b.toLower = 'l' then (tagEndLen rest2).map (fun n => (BlockKind.ul, 3 + n))
        else if a.toLower = 'o' ∧ b.toLower = 'l' then (tagEndLen rest2).map (fun n => (BlockKind.ol, 3 + n))
        else none
      | [] => none
  | _ => none

/-- First position `≥ i` where the block-open regex matches; the `exec`
scan of `topBlockRe`. -/
def findBlockOpenFrom (cs : List Char) : Nat → Nat → Option (Nat × BlockKind × Nat)
  | 0, _ => none
  | f + 1, i =>
    match matchBlockOpen (cs.drop i) with
    | some (k, len) => some (i, k, len)
    | none => if i < cs.length then findBlockOpenFrom cs f (i + 1) else none

/-- Attempt to match `<(\/?)tag(?:\s[^>]*)?>` for the two-letter tag
`t1 t2` at the head of `cs`; returns the close flag and matched length. -/
def matchTagOC (t1 t2 : Char) (cs : List Char) : Option (Bool × Nat) :=
  match cs with
  | '<' :: rest =>
    match rest with
    | '/' :: a :: b :: rest2 =>
      if a.toLower = t1 ∧ b.toLower = t2 then (tagEndLen rest2).map (fun n => (true, 4 + n)) else none
    | a :: b :: rest2 =>
      if a.toLower = t1 ∧ b.toLower = t2 then (tagEndLen rest2).map (fun n => (false, 3 + n)) else none
    | _ => none
  | _ => none

/-- The nesting-aware search for the matching close tag of a `ul`/`ol`
block (lines 251–259): successive matches of the open/close regex adjust a
depth counter; the match that brings it to zero is the answer. -/
def findCloseFrom (cs : List Char) (t1 t2 : Char) : Nat → Nat → Int → Option (Nat × Nat)
  | 0, _, _ => none
  | f + 1, i, depth =>
    match matchTagOC t1 t2 (cs.drop i) with
    | some (isClose, len) =>
      let depth' := if isClose then depth - 1 else depth + 1
      if depth' = 0 then some (i, len) else findCloseFrom cs t1 t2 f (i + len) depth'
    | none => if i < cs.length then findCloseFrom cs t1 t2 f (i + 1) depth else none

/-- Build the entry for one top-level list item (lines 265–287); `none`
when the cleaned text is empty (the item is skipped). -/
def liEntryOf (version category url : String) (raw : List Char) : Option Entry :=
  let text := cleanText raw
  if text.isEmpty then none
  else
    some { version := version
           category := category
           dsof := String.mk (joinCommaSpace (dsofScan text))
           description := String.mk (descOf text)
           url := url }

/-- Entries of all top-level items of one list block, in document order. -/
def lisEntries (version category url : String) (blockHtml : List Char) : List Entry :=
  ((lisRun blockHtml.length blockHtml initLiState).items).filterMap (liEntryOf version category url)

/-- The paragraph-continuation update (lines 240–246): non-empty paragraph
text is appended, newline-joined, to the description of the last entry when
that entry belongs to the same version and category. -/
def pContinuation (version category : String) (pText : List Char) (entries : List Entry) : List Entry :=
  if pText.isEmpty then entries
  else
    match entries.getLast? with
    | none => entries
    | some lastE =>
      if lastE.version = version ∧ lastE.category = category then
        entries.dropLast ++ [{ lastE with description := lastE.description ++ "\n" ++ String.mk pText }]
      else entries

/-- The main loop of `extractWithRegex`: scan for top-level `<ul>`, `<ol>`
and `<p>` blocks from the cursor, fold each into the entry list, and move
the cursor past the block.  `fuel` bounds the number of loop iterations;
each iteration advances the cursor. -/
def ewrGo (cs : List Char) (version category url : String) : Nat → Nat → List Entry → List Entry
  | 0, _, entries => entries
  | f + 1, pos, entries =>
    match findBlockOpenFrom cs (cs.length + 1) pos with
    | none => entries
    | some (j, BlockKind.p, mlen) =>
      match indexOfFrom cs "</p>".data (cs.length + 1) (j + mlen) with
      | none => ewrGo cs version category url f (j + mlen) entries
      | some closeIdx =>
        let inner := (cs.drop (j + mlen)).take (closeIdx - (j + mlen))
        let pText := jsTrim (decodeEntities (stripTags inner))
        ewrGo cs version category url f (closeIdx + 4) (pContinuation version category pText entries)
    | some (j, BlockKind.ul, mlen) =>
      match findCloseFrom cs 'u' 'l' (cs.length + 1) (j + mlen) 1 with
      | none => ewrGo cs version category url f (j + mlen) entries
      | some (ci, clen) =>
        let blockHtml := (cs.drop j).take (ci + clen - j)
        ewrGo cs version category url f (ci + clen) (entries ++ lisEntries version category url blockHtml)
    | some (j, BlockKind.ol, mlen) =>
      match findCloseFrom cs 'o' 'l' (cs.length + 1) (j + mlen) 1 with
      | none => ewrGo cs version category url f (j + mlen) entries
      | some (ci, clen) =>
        let blockHtml := (cs.drop j).take (ci + clen - j)
        ewrGo cs version category url f (ci + clen) (entries ++ lisEntries version category url blockHtml)

/-- `extractWithRegex(sectionContent, currentVersion, currentCategory,
sectionUrl, entries)` (lines 227–289).  The source mutates the `entries`
array; the model threads it as a value. -/
def extractWithRegex (sectionContent version category url : String) (entries : List Entry) : List Entry :=
  ewrGo sectionContent.data version category url (sectionContent.data.length + 2) 0 entries

/-! ## The orphan-merge pass (`parseReleasePage`, lines 406–428) -/

/-- Eligibility of a preceding entry as a merge parent (line 415): it has
ticket ids and shares version and category with the orphan. -/
def eligible (p e : Entry) : Bool :=
  p.dsof != "" && p.version == e.version && p.category == e.category

/-- The largest index of an eligible entry in `merged` (the backward search
of lines 413–419). -/
def lastEligibleIdx : List Entry → Entry → Option Nat
  | [], _ => none
  | x :: xs, e =>
    match lastEligibleIdx xs e with
    | some i => some (i + 1)
    | none => if eligible x e then some 0 else none

/-- Append `d`, newline-joined, to the description of the entry at index
`i` (the in-place `parent.description += "\n" + entry.description`). -/
def appendDescAt (m : List Entry) (i : Nat) (d : String) : List Entry :=
  match m.get? i with
  | some p => m.set i { p with description := p.description ++ "\n" ++ d }
  | none => m

/-- One step of the orphan-merge fold (lines 409–426). -/
def mergeStep (merged : List Entry) (entry : Entry) : List Entry :=
  if entry.dsof ≠ "" ∨ merged.isEmpty then merged ++ [entry]
  else
    match lastEligibleIdx merged entry with
    | some i => appendDescAt merged i entry.description
    | none => merged ++ [entry]

/-- The whole orphan-merge pass over the flat entry list. -/
def mergeOrphans (entries : List Entry) : List Entry :=
  entries.foldl mergeStep []

/-! ## The Document Segmenter (`parseReleasePage`, lines 291–360) -/

def BASE_URL : String := "https://help.disguise.one"

/-- Attempt to match the heading-open regex `<hD[^>]*>` (case-insensitive)
for the digit `d` at the head of `cs`; returns the open-tag length. -/
def matchHeadOpen (d : Char) (cs : List Char) : Option Nat :=
  match cs with
  | '<' :: c1 :: c2 :: rest =>
    if c1.toLower = 'h' ∧ c2 = d then (gtIndex rest).map (fun k => 4 + k) else none
  | _ => none

/-- Search for the element regex `<hD[^>]*>([\s\S]*?)</hD>` from position
`i`: at each start position the open tag must complete and a close tag must
follow; otherwise the engine advances.  Returns
(start, open length, close start). -/
def findHeadElemFrom (d : Char) (cs : List Char) : Nat → Nat → Option (Nat × Nat × Nat)
  | 0, _ => none
  | f + 1, i =>
    match matchHeadOpen d (cs.drop i) with
    | some olen =>
      match indexOfCiFrom cs ('<' :: '/' :: 'h' :: d :: '>' :: []) (cs.length + 1) (i + olen) with
      | some j => some (i, olen, j)
      | none => if i < cs.length then findHeadElemFrom d cs f (i + 1) else none
    | none => if i < cs.length then findHeadElemFrom d cs f (i + 1) else none

/-- `part.match(/<hD[^>]*>([\s\S]*?)<\/hD>/i)`: the full match text and the
captured inner content of the first heading element of level `d`. -/
def findHeadElem (d : Char) (cs : List Char) : Option (List Char × List Char) :=
  (findHeadElemFrom d cs (cs.length + 1) 0).map fun r =>
    ((cs.drop r.1).take (r.2.2 + 5 - r.1), (cs.drop (r.1 + r.2.1)).take (r.2.2 - (r.1 + r.2.1)))

/-- The `\bid="([^"]+)"` capture inside the open tag of a matched `h2`
element (line 318): the last `id="` in the open tag that is preceded by a
non-word character, with a non-empty value.  Returns `none` when the tag
carries no such attribute. -/
def findIdAttr (fullMatch : List Char) : Option (List Char) :=
  match fullMatch with
  | '<' :: c1 :: c2 :: rest =>
    if c1.toLower = 'h' ∧ c2 = '2' then
      match gtIndex rest with
      | some k => idScan (rest.take k) '2'
      | none => none
    else none
  | _ => none
where
  /-- Scan a tag-attribute region for the last boundary-correct `id="v"`. -/
  idScan (region : List Char) (prev : Char) : Option (List Char) :=
    match region with
    | [] => none
    | c :: rest =>
      let here :=
        if ¬(prev.isAlphanum ∨ prev = '_') ∧ leadMatchCi "id=\"".data (c :: rest) then
          let v := (rest.drop 3).takeWhile (· ≠ '"')
          if v.isEmpty ∨ ((rest.drop 3).dropWhile (· ≠ '"')).isEmpty then none else some v
        else none
      match idScan rest c with
      | some v => some v
      | none => here

/-- The `(?:\.\d+)*` groups of the version-token regex: greedy repetition
of a dot followed by a non-empty digit run. -/
def dotGroupsGo : Nat → List Char → List Char
  | 0, _ => []
  | f + 1, cs =>
    match cs with
    | '.' :: rest =>
      let ds := rest.takeWhile Char.isDigit
      if ds.isEmpty then [] else '.' :: ds ++ dotGroupsGo f (rest.dropWhile Char.isDigit)
    | _ => []

/-- The version token regex `/(r\d+(?:\.\d+)*)/i` (line 319) matched at one
position: `r` (case-insensitive) followed by a non-empty digit run and any
number of `.digits` groups. -/
def matchVersionAt : List Char → Option (List Char)
  | c :: rest =>
    if c.toLower = 'r' then
      let ds := rest.takeWhile Char.isDigit
      if ds.isEmpty then none
      else some (c :: ds ++ dotGroupsGo rest.length (rest.dropWhile Char.isDigit))
    else none
  | [] => none

/-- First match of the version-token regex in `cs`. -/
def findVersionTokenFrom (cs : List Char) : Nat → Nat → Option (List Char)
  | 0, _ => none
  | f + 1, i =>
    match matchVersionAt (cs.drop i) with
    | some v => some v
    | none => if i < cs.length then findVersionTokenFrom cs f (i + 1) else none

def findVersionToken (cs : List Char) : Option (List Char) :=
  findVersionTokenFrom cs (cs.length + 1) 0

/-- The page-path fallback version `/(r\d+)/i` (line 299): first `r`
followed by a non-empty digit run. -/
def matchRNumAt : List Char → Option (List Char)
  | c :: rest =>
    if c.toLower = 'r' then
      let ds := rest.takeWhile Char.isDigit
      if ds.isEmpty then none else some (c :: ds)
    else none
  | [] => none

def findRNumFrom (cs : List Char) : Nat → Nat → Option (List Char)
  | 0, _ => none
  | f + 1, i =>
    match matchRNumAt (cs.drop i) with
    | some v => some v
    | none => if i < cs.length then findRNumFrom cs f (i + 1) else none

/-- `pagePath && pagePath.match(/(r\d+)/i)` — the page-level fallback
version, empty when the path yields none. -/
def pageVersionOf (pagePath : String) : String :=
  if pagePath.data.isEmpty then ""
  else
    match findRNumFrom pagePath.data (pagePath.data.length + 1) 0 with
    | some v => String.mk v
    | none => ""

/-- Does the split lookahead `(?=<h[23][^>]*>)` match at the head of
`cs`? -/
def headingStartHere (cs : List Char) : Bool :=
  (matchHeadOpen '2' cs).isSome || (matchHeadOpen '3' cs).isSome

/-- `content.split(/(?=<h[23][^>]*>)/i)`: pieces are cut immediately before
every heading open tag; a zero-width match at position 0 produces no empty
leading piece. -/
def splitPartsGo (acc : List Char) : Nat → List Char → List (List Char)
  | 0, rest => [acc ++ rest]
  | _ + 1, [] => [acc]
  | f + 1, c :: rest =>
    if headingStartHere (c :: rest) then acc :: splitPartsGo [c] f rest
    else splitPartsGo (acc ++ [c]) f rest

def splitParts (cs : List Char) : List (List Char) :=
  match cs with
  | [] => [[]]
  | c :: rest => splitPartsGo [c] rest.length rest

/-- `part.replace(/<h[23][^>]*>[\s\S]*?<\/h[23]>/i, "")` (line 338): remove
the first heading element — an `h2` or `h3` open tag followed lazily by the
earliest `h2` or `h3` close tag. -/
def removeFirstHeadingFrom (cs : List Char) : Nat → Nat → List Char
  | 0, _ => cs
  | f + 1, i =>
    let opened : Option Nat :=
      match matchHeadOpen '2' (cs.drop i) with
      | some n => some n
      | none => matchHeadOpen '3' (cs.drop i)
    match opened with
    | some olen =>
      let c2 := indexOfCiFrom cs "</h2>".data (cs.length + 1) (i + olen)
      let c3 := indexOfCiFrom cs "</h3>".data (cs.length + 1) (i + olen)
      let close : Option Nat :=
        match c2, c3 with
        | some a, some b => some (min a b)
        | some a, none => some a
        | none, some b => some b
        | none, none => none
      match close with
      | some j => cs.take i ++ cs.drop (j + 5)
      | none => if i < cs.length then removeFirstHeadingFrom cs f (i + 1) else cs
    | none => if i < cs.length then removeFirstHeadingFrom cs f (i + 1) else cs

def removeFirstHeading (cs : List Char) : List Char :=
  removeFirstHeadingFrom cs (cs.length + 1) 0

/-- `html.match(/<main[^>]*>([\s\S]*?)<\/main>/i)` (line 295): the captured
inner content of the first `main` element, if any. -/
def extractMainFrom (cs : List Char) : Nat → Nat → Option (List Char)
  | 0, _ => none
  | f + 1, i =>
    let opened : Option Nat :=
      if leadMatchCi "<main".data (cs.drop i) then
        (gtIndex (cs.drop (i + 5))).map (fun k => 6 + k)
      else none
    match opened with
    | some olen =>
      match indexOfCiFrom cs "</main>".data (cs.length + 1) (i + olen) with
      | some j => some ((cs.drop (i + olen)).take (j - (i + olen)))
      | none => if i < cs.length then extractMainFrom cs f (i + 1) else none
    | none => if i < cs.length then extractMainFrom cs f (i + 1) else none

def extractMain (html : List Char) : Option (List Char) :=
  extractMainFrom html (html.length + 1) 0

/-- The mutable heading state of the segmentation loop: `currentVersion`,
`currentCategory`, `currentAnchor`. -/
structure SegSt where
  version : String
  category : String
  anchor : String
deriving DecidableEq, Repr

/-- The heading-state update of one loop iteration (lines 313–336): an `h2`
carrying a version token starts a new version and resets the category; an
`h2` without one becomes a category heading and, when no version has been
seen yet, adopts the page-level fallback version; an `h3` sets the
category. -/
def headingStep (pageVersion : String) (st : SegSt) (part : List Char) : SegSt :=
  let st :=
    match findHeadElem '2' part with
    | some (full, inner) =>
      let rawText := String.mk (cleanText inner)
      match findVersionToken (cleanText inner) with
      | some v =>
        { version := String.mk v
          anchor := match findIdAttr full with
                    | some a => String.mk a
                    | none => ""
          category := "" }
      | none =>
        { st with
            version := if st.version = "" ∧ pageVersion ≠ "" then pageVersion else st.version
            category := rawText }
    | none => st
  match findHeadElem '3' part with
  | some (_, inner) => { st with category := String.mk (cleanText inner) }
  | none => st

/-- One iteration of the `!USE_AI` segmentation loop for one part: update
the heading state, strip the first heading element, and run the
pattern-based extractor on the remainder (lines 313–359 with `USE_AI`
false and no `--version` filter). -/
def partStep (pagePath pageVersion : String) (acc : SegSt × List Entry) (part : List Char) :
    SegSt × List Entry :=
  let st := headingStep pageVersion acc.1 part
  let sectionContent := removeFirstHeading part
  let sectionUrl := BASE_URL ++ pagePath ++ (if st.anchor = "" then "" else "#" ++ st.anchor)
  (st, extractWithRegex (String.mk sectionContent) st.version st.category sectionUrl acc.2)

/-- `parseReleasePage(html, pagePath)` on the pattern-fallback path
(`USE_AI` false, no version filter): extract the `main` content, derive the
page-level fallback version, split at headings, fold the segmentation loop,
and finish with the orphan-merge pass (lines 291–360 and 406–428). -/
def parseReleasePageNoAI (html pagePath : String) : List Entry :=
  let content :=
    match extractMain html.data with
    | some inner => inner
    | none => html.data
  let pageVersion := pageVersionOf pagePath
  let parts := splitParts content
  mergeOrphans (parts.foldl (partStep pagePath pageVersion) (⟨"", "", ""⟩, [])).2

/-! ## Output persistence and startup (`main`, lines 433–520) -/

/-- On a full run, `main` persists the flat entry list exactly as gathered:
`writeFileSync(outPath, JSON.stringify(allEntries, null, 2))` (line 514). -/
def fullRunOutput (allEntries : List Entry) : List Entry :=
  allEntries

/-- On a scoped run (lines 506–512), the previously persisted collection is
filtered by an exact, case-insensitive version comparison
(`e.version.toLowerCase() !== ONLY_VERSION`) and the new entries are
appended.  `onlyVersion` is already lower-cased, as `ONLY_VERSION` is at
argv parsing (line 43). -/
def scopedMergeOutput (existing : List Entry) (onlyVersion : String) (newEntries : List Entry) :
    List Entry :=
  existing.filter (fun e => String.mk (lowerList e.version.data) ≠ onlyVersion) ++ newEntries

/-- Modelled from the spec: the version-match rule of the Version-Scoped
Merger — a filter matches a recorded version exactly or as a dotted prefix
(filter `r32` matches `r32`, `r32.1`, `r32.1.2` but not `r320` or `r3`).
This rule is stated by the spec; the code of `main` implements only the
exact comparison, which is what the theorems below establish. -/
def specVersionMatches (filterV recorded : String) : Bool :=
  recorded == filterV || leadMatch (filterV.data ++ ['.']) recorded.data

/-- The startup outcome of lines 45–50: either the process proceeds (with
the computed `USE_AI` flag, possibly after printing a warning) or it exits.
The source never exits there: a missing token without `--no-ai` only warns
and disables the AI path. -/
inductive RunStart where
  | proceed (useAI : Bool) (warned : Bool)
  | exitCode (code : Nat)
deriving DecidableEq, Repr

/-- Lines 45–50: `USE_AI = !NO_AI && !!AI_TOKEN`, and a warning if and only
if the token is absent and `--no-ai` is not set. -/
def startup (aiToken : Option String) (noAI : Bool) : RunStart :=
  RunStart.proceed (!noAI && aiToken.isSome) (aiToken.isNone && !noAI)

/-- `ONLY_VERSION.match(/^(r\d+)/i)` (line 448): the major release prefix
of the version filter. -/
def parseMajor (v : String) : Option String :=
  (matchRNumAt v.data).map String.mk

/-- `l.endsWith(suffix)`. -/
def endsWithList (l suffix : List Char) : Bool :=
  leadMatch suffix.reverse l.reverse

/-- The page filter of a scoped run (lines 447–452): keep only paths ending
in `/<major>` (lower-cased on both sides, as the source lower-cases both
the major and the compared path). -/
def filterPathsForVersion (onlyVersion : String) (paths : List String) : List String :=
  match parseMajor onlyVersion with
  | some major =>
    paths.filter (fun p => endsWithList (lowerList p.data) ('/' :: lowerList major.data))
  | none => paths

/-- Lines 453–456: when the filtered path list is empty the process exits
with code 1 — the only explicit fail-fast in `main` before any work. -/
def scopedPathCheck (onlyVersion : String) (paths : List String) : Except Nat (List String) :=
  let ps := filterPathsForVersion onlyVersion paths
  if ps.isEmpty then Except.error 1 else Except.ok ps

/-! ## The Structured-Extraction Adapter and its cache
(`extractWithAI`, lines 108–157) -/

/-- One entry of the strict response schema (`AI_JSON_SCHEMA`). -/
structure AIEntry where
  category : String
  dsof : String
  description : String
deriving DecidableEq, Repr

/-- The parsed response payload: the schema requires exactly these
fields. -/
structure AIParsed where
  build : String
  starter_build : String
  released : String
  entries : List AIEntry
deriving DecidableEq, Repr

/-- A value returned by `extractWithAI`: either the raw parsed payload
(a fresh call, line 156 — no `version` property) or a cached object
(line 113 — `{ version, ...parsed }`, line 153). -/
structure AIRet where
  version : Option String
  build : String
  starter_build : String
  released : String
  entries : List AIEntry
deriving DecidableEq, Repr

def retOfParsed (p : AIParsed) : AIRet :=
  ⟨none, p.build, p.starter_build, p.released, p.entries⟩

/-- The content hash of line 62–64.  The sha256 digest is an external
collaborator; only equality of digests of equal content is ever used, so it
is modelled as the identity on the hashed text. -/
def cacheKey (markdown : String) : String :=
  markdown

/-- The mutable adapter state: the persisted cache object (an association
list keyed by content hash) and the number of external calls issued. -/
structure AIState where
  cache : List (String × AIRet)
  calls : Nat
deriving DecidableEq, Repr

def lookupCache (c : List (String × AIRet)) (k : String) : Option AIRet :=
  (c.find? (fun p => p.1 == k)).map (fun p => p.2)

def upsert (c : List (String × AIRet)) (k : String) (v : AIRet) : List (String × AIRet) :=
  match c with
  | [] => [(k, v)]
  | (k', v') :: rest => if k' = k then (k, v) :: rest else (k', v') :: upsert rest k v

/-- `extractWithAI(versionHtml, version)` (lines 108–157).  `toMarkdown`
stands for the external `htmlToMarkdown` collaborator; `oracle` for the
external extraction service, which may fail (non-success response, empty
content, malformed payload — lines 141–150).  A cache hit with no forced
refresh returns the cached object without a call; otherwise a call is
issued, and on success the result is cached as `{ version, ...parsed }`
and the raw parsed payload is returned. -/
def extractWithAI (oracle : String → Except String AIParsed) (force : Bool)
    (toMarkdown : String → String) (st : AIState) (versionHtml version : String) :
    Except String AIRet × AIState :=
  let markdown := toMarkdown versionHtml
  let key := cacheKey markdown
  match lookupCache st.cache key, force with
  | some v, false => (Except.ok v, st)
  | _, _ =>
    match oracle markdown with
    | Except.ok parsed =>
      let cached : AIRet := { retOfParsed parsed with version := some version }
      (Except.ok (retOfParsed parsed), ⟨upsert st.cache key cached, st.calls + 1⟩)
    | Except.error e => (Except.error e, ⟨st.cache, st.calls + 1⟩)

/-- One category sub-range of a version section (`currentSection.parts`,
line 346). -/
structure SecPart where
  category : String
  content : String
  url : String
deriving DecidableEq, Repr

/-- One version section accumulated by the segmenter (line 324). -/
structure VSection where
  version : String
  anchor : String
  html : String
  parts : List SecPart
deriving DecidableEq, Repr

/-- The AI-path entry construction for one successful extraction
(lines 382–395): entries with an empty description are skipped; the
release metadata of the payload is attached to every entry. -/
def aiEntriesFor (secVersion sectionUrl : String) (r : AIRet) : List Entry :=
  r.entries.filterMap fun e =>
    if e.description = "" then none
    else
      some { version := secVersion
             category := e.category
             dsof := e.dsof
             description := e.description
             url := sectionUrl
             build := some r.build
             starter_build := some r.starter_build
             released := some r.released }

/-- The per-section fallback of lines 398–401: the pattern-based extractor
applied independently to each category sub-range of the section. -/
def regexFallbackParts (secVersion : String) (parts : List SecPart) (entries : List Entry) :
    List Entry :=
  parts.foldl (fun es p => extractWithRegex p.content secVersion p.category p.url es) entries

/-- The AI extraction loop of `parseReleasePage` (lines 376–404): one
extraction per section, a failure replaced section-locally by the
pattern-based fallback, the loop always continuing with the remaining
sections. -/
def processSections (oracle : String → Except String AIParsed) (force : Bool)
    (toMarkdown : String → String) (pagePath : String)
    (secs : List VSection) (acc : AIState × List Entry) : AIState × List Entry :=
  secs.foldl
    (fun (acc : AIState × List Entry) sec =>
      if sec.html = "" then acc
      else
        let sectionUrl := BASE_URL ++ pagePath ++ (if sec.anchor = "" then "" else "#" ++ sec.anchor)
        match extractWithAI oracle force toMarkdown acc.1 sec.html sec.version with
        | (Except.ok r, st') => (st', acc.2 ++ aiEntriesFor sec.version sectionUrl r)
        | (Except.error _, st') => (st', regexFallbackParts sec.version sec.parts acc.2))
    acc

/-! ## Balanced list markup

For the universally quantified nested-list claim, balanced fragments are
generated from a tree grammar: a node is either text (containing no `'<'`,
so the tag scanner cannot misread it) or a complete `ul`/`ol` list whose
children are list items, each item holding a sequence of nodes.  The
serialisation writes canonical tags. -/

mutual
inductive HNode where
  | txt : String → HNode
  | list : Bool → HItems → HNode
deriving DecidableEq

inductive HContent where
  | hnil : HContent
  | hcons : HNode → HContent → HContent
deriving DecidableEq

inductive HItems where
  | inil : HItems
  | icons : HContent → HItems → HItems
deriving DecidableEq
end

/-- The open tag of a list node: `<ul>` for `true`, `<ol>` for `false`. -/
def openTagOf (b : Bool) : List Char :=
  if b then "<ul>".data else "<ol>".data

def closeTagOf (b : Bool) : List Char :=
  if b then "</ul>".data else "</ol>".data

mutual
/-- Serialise a node to markup characters. -/
def serNode : HNode → List Char
  | HNode.txt s => s.data
  | HNode.list b its => openTagOf b ++ serItems its ++ closeTagOf b

/-- Serialise the content of one list item. -/
def serContent : HContent → List Char
  | HContent.hnil => []
  | HContent.hcons n rest => serNode n ++ serContent rest

/-- Serialise a sequence of list items, each wrapped in `<li>…</li>`. -/
def serItems : HItems → List Char
  | HItems.inil => []
  | HItems.icons c rest => "<li>".data ++ serContent c ++ "</li>".data ++ serItems rest
end

mutual
/-- Text nodes contain no `'<'`. -/
def nodeOk : HNode → Bool
  | HNode.txt s => s.data.all (· ≠ '<')
  | HNode.list _ its => itemsOk its

def contentOk : HContent → Bool
  | HContent.hnil => true
  | HContent.hcons n rest => nodeOk n && contentOk rest

def itemsOk : HItems → Bool
  | HItems.inil => true
  | HItems.icons c rest => contentOk c && itemsOk rest
end

/-- The serialised content of each list item, in document order. -/
def itemContentsL : HItems → List (List Char)
  | HItems.inil => []
  | HItems.icons c rest => serContent c :: itemContentsL rest

/-! ## Concrete instances used by counterexamples and witnesses -/

/-- A persisted record whose version is a dotted extension of the filter
`r32`. -/
def entryR321 : Entry :=
  { version := "r32.1", category := "Bug Fixes", dsof := "DSOF-7"
    description := "d", url := "u" }

/-- A deterministic stand-in for a succeeding extraction service. -/
def oracleOk : String → Except String AIParsed :=
  fun _ => Except.ok ⟨"234682", "234683", "December 10th 2025", [⟨"Bug Fixes", "DSOF-1", "fix"⟩]⟩

/-- A deterministic stand-in for a failing extraction service
(non-success response). -/
def oracleFail : String → Except String AIParsed :=
  fun _ => Except.error "AI API error 500"

/-- The end-to-end scenario page of the spec (§8): one version heading,
one category heading, a two-item list. -/
def pageC8 : String :=
  "<h2>r32.1</h2><h3>Bug Fixes</h3><ul><li>Fixed T-100: crash on load</li><li>Improved startup time</li></ul>"

def pathC8 : String := "/designer/release-notes/r32"

def urlC8 : String := "https://help.disguise.one/designer/release-notes/r32"

/-- What the pattern-fallback path actually produces for the first item of
the scenario page: `T-100` does not match the ticket pattern `DSOF-\d+`,
so no ticket id is extracted and the description keeps the full text. -/
def entryC8a : Entry :=
  { version := "r32.1", category := "Bug Fixes", dsof := ""
    description := "Fixed T-100: crash on load", url := urlC8 }

def entryC8b : Entry :=
  { version := "r32.1", category := "Bug Fixes", dsof := ""
    description := "Improved startup time", url := urlC8 }

/-- The value returned by a fresh extraction of the `oracleOk` payload:
the raw parsed payload, with no `version` property. -/
def aiRetFresh : AIRet :=
  ⟨none, "234682", "234683", "December 10th 2025", [⟨"Bug Fixes", "DSOF-1", "fix"⟩]⟩

/-- The value returned by the subsequent cache hit: the cached object,
tagged with the section version. -/
def aiRetCached : AIRet :=
  { aiRetFresh with version := some "r32" }

/-- A page whose list content precedes any heading at all. -/
def pageC9 : String := "<ul><li>Hello</li></ul>"

def pathC9 : String := "/designer/release-notes/r30"

/-- A parent entry with ticket ids, and an orphan sharing its version and
category. -/
def parentEnt : Entry :=
  { version := "v", category := "c", dsof := "DSOF-1", description := "x", url := "u" }

def orphanEnt : Entry :=
  { version := "v", category := "c", dsof := "", description := "y", url := "u" }

/-- A section whose external extraction fails, with two category
sub-ranges. -/
def secC6 : VSection :=
  { version := "r31", anchor := "a31"
    html := "<h3>Bug Fixes</h3><ul><li>DSOF-2 fix two</li></ul>"
    parts := [⟨"Bug Fixes", "<ul><li>DSOF-2 fix two</li></ul>", "u1"⟩,
              ⟨"Improvements", "<ul><li>DSOF-3 fix three</li></ul>", "u2"⟩] }

/-- A sample balanced fragment: two top-level items, the first containing
a nested sub-list. -/
def sampleItems : HItems :=
  HItems.icons
    (HContent.hcons (HNode.txt "A")
      (HContent.hcons
        (HNode.list true (HItems.icons (HContent.hcons (HNode.txt "B") HContent.hnil) HItems.inil))
        HContent.hnil))
    (HItems.icons (HContent.hcons (HNode.txt "C") HContent.hnil) HItems.inil)

/-! ## Helper lemmas -/

theorem lookup_upsert (c : List (String × AIRet)) (k : String) (v : AIRet) :
    lookupCache (upsert c k v) k = some v := by
  induction c with
  | nil => simp [upsert, lookupCache, List.find?]
  | cons p rest ih =>
    obtain ⟨k', v'⟩ := p
    by_cases h : k' = k
    · simp [upsert, h, lookupCache, List.find?]
    · simp only [upsert, if_neg h, lookupCache, List.find?]
      rw [show (k' == k) = false from beq_false_of_ne h]
      exact ih

theorem lastEligible_none_spec (m : List Entry) (e : Entry)
    (h : lastEligibleIdx m e = none) :
    ∀ j, ∀ hj : j < m.length, eligible (m.get ⟨j, hj⟩) e = false := by
  induction m with
  | nil => intro j hj; simp at hj
  | cons x xs ih =>
    intro j hj
    unfold lastEligibleIdx at h
    cases hx : lastEligibleIdx xs e with
    | some i => rw [hx] at h; simp at h
    | none =>
      rw [hx] at h
      by_cases hel : eligible x e = true
      · simp [hel] at h
      · cases j with
        | zero => simpa using hel
        | succ j' =>
          have := ih hx j' (by simpa using Nat.lt_of_succ_lt_succ hj)
          simpa using this

theorem lastEligible_some_spec (m : List Entry) (e : Entry) (i : Nat)
    (h : lastEligibleIdx m e = some i) :
    ∃ hi : i < m.length, eligible (m.get ⟨i, hi⟩) e = true ∧
      ∀ j, ∀ hj : j < m.length, i < j → eligible (m.get ⟨j, hj⟩) e = false := by
  induction m generalizing i with
  | nil => simp [lastEligibleIdx] at h
  | cons x xs ih =>
    unfold lastEligibleIdx at h
    cases hx : lastEligibleIdx xs e with
    | some i' =>
      rw [hx] at h
      have hi' : i = i' + 1 := by
        simpa using h.symm
      subst hi'
      obtain ⟨hlt, hel, hmax⟩ := ih i' hx
      refine ⟨by simpa using Nat.succ_lt_succ hlt, by simpa using hel, ?_⟩
      intro j hj hgt
      cases j with
      | zero => omega
      | succ j' =>
        have := hmax j' (by simpa using Nat.lt_of_succ_lt_succ hj) (by omega)
        simpa using this
    | none =>
      rw [hx] at h
      by_cases hel : eligible x e = true
      · have h0 : i = 0 := by simp [hel] at h; omega
        subst h0
        refine ⟨by simp, by simpa using hel, ?_⟩
        intro j hj hgt
        cases j with
        | zero => omega
        | succ j' =>
          have := lastEligible_none_spec xs e hx j' (by simpa using Nat.lt_of_succ_lt_succ hj)
          simpa using this
      · simp [hel] at h

theorem mkStr_ne_empty {l : List Char} (h : l ≠ []) : String.mk l ≠ "" :=
  fun he => h (congrArg String.data he)

theorem strApp_nl_ne_empty (s t : String) : s ++ "\n" ++ t ≠ "" := by
  intro h
  have hd : (s ++ "\n" ++ t).data = s.data ++ ['\n'] ++ t.data := rfl
  rw [h] at hd
  simp at hd

theorem descOf_ne_nil {text : List Char} (h : text ≠ []) : descOf text ≠ [] := by
  unfold descOf
  by_cases hc : (cleanedDesc text).isEmpty
  · simpa [hc] using h
  · simpa [hc] using fun he => hc (by simp [he, List.isEmpty_iff])

theorem liEntryOf_desc_ne {v c u : String} {raw : List Char} {e : Entry}
    (h : liEntryOf v c u raw = some e) : e.description ≠ "" := by
  unfold liEntryOf at h
  by_cases ht : (cleanText raw).isEmpty
  · simp [ht] at h
  · simp only [ht, if_neg, Bool.false_eq_true, not_false_eq_true, if_false, Option.some.injEq] at h
    subst h
    exact mkStr_ne_empty (descOf_ne_nil (fun hnil => by simp [hnil, List.isEmpty_iff] at ht))

theorem lisEntries_desc_ne (v c u : String) (blockHtml : List Char) :
    ∀ e ∈ lisEntries v c u blockHtml, e.description ≠ "" := by
  intro e he
  obtain ⟨raw, _, hr⟩ := List.mem_filterMap.mp he
  exact liEntryOf_desc_ne hr

theorem pContinuation_desc_ne (v c : String) (p : List Char) (es : List Entry)
    (hes : ∀ e ∈ es, e.description ≠ "") :
    ∀ e ∈ pContinuation v c p es, e.description ≠ "" := by
  intro e he
  unfold pContinuation at he
  by_cases hp : p.isEmpty
  · exact hes e (by simpa [hp] using he)
  · simp only [hp, Bool.false_eq_true, if_false] at he
    cases hl : es.getLast? with
    | none => rw [hl] at he; exact hes e he
    | some lastE =>
      rw [hl] at he
      dsimp only at he
      by_cases hvc : lastE.version = v ∧ lastE.category = c
      · rw [if_pos hvc] at he
        rcases List.mem_append.mp he with h1 | h2
        · exact hes e (List.dropLast_subset es h1)
        · have : e = { lastE with description := lastE.description ++ "\n" ++ String.mk p } := by
            simpa using h2
          rw [this]
          exact strApp_nl_ne_empty _ _
      · rw [if_neg hvc] at he
        exact hes e he

theorem ewrGo_desc_ne (cs : List Char) (v c u : String) :
    ∀ f pos entries, (∀ e ∈ entries, e.description ≠ "") →
      ∀ e ∈ ewrGo cs v c u f pos entries, e.description ≠ "" := by
  intro f
  induction f with
  | zero => intro pos entries hes e he; exact hes e he
  | succ f ih =>
    intro pos entries hes e he
    unfold ewrGo at he
    cases hb : findBlockOpenFrom cs (cs.length + 1) pos with
    | none => rw [hb] at he; exact hes e he
    | some r =>
      obtain ⟨j, kind, mlen⟩ := r
      rw [hb] at he
      cases kind with
      | p =>
        dsimp only at he
        cases hi : indexOfFrom cs "</p>".data (cs.length + 1) (j + mlen) with
        | none => rw [hi] at he; exact ih _ _ hes e he
        | some closeIdx =>
          rw [hi] at he
          exact ih _ _ (pContinuation_desc_ne v c _ entries hes) e he
      | ul =>
        dsimp only at he
        cases hc : findCloseFrom cs 'u' 'l' (cs.length + 1) (j + mlen) 1 with
        | none => rw [hc] at he; exact ih _ _ hes e he
        | some r' =>
          rw [hc] at he
          refine ih _ _ ?_ e he
          intro e' he'
          rcases List.mem_append.mp he' with h1 | h2
          · exact hes e' h1
          · exact lisEntries_desc_ne v c u _ e' h2
      | ol =>
        dsimp only at he
        cases hc : findCloseFrom cs 'o' 'l' (cs.length + 1) (j + mlen) 1 with
        | none => rw [hc] at he; exact ih _ _ hes e he
        | some r' =>
          rw [hc] at he
          refine ih _ _ ?_ e he
          intro e' he'
          rcases List.mem_append.mp he' with h1 | h2
          · exact hes e' h1
          · exact lisEntries_desc_ne v c u _ e' h2

theorem mergeStep_desc_ne (m : List Entry) (e : Entry)
    (hm : ∀ x ∈ m, x.description ≠ "") (he : e.description ≠ "") :
    ∀ x ∈ mergeStep m e, x.description ≠ "" := by
  intro x hx
  unfold mergeStep at hx
  by_cases hc : e.dsof ≠ "" ∨ m.isEmpty = true
  · rw [if_pos hc] at hx
    rcases List.mem_append.mp hx with h1 | h2
    · exact hm x h1
    · rw [List.mem_singleton.mp h2]; exact he
  · rw [if_neg hc] at hx
    cases hl : lastEligibleIdx m e with
    | none =>
      rw [hl] at hx
      dsimp only at hx
      rcases List.mem_append.mp hx with h1 | h2
      · exact hm x h1
      · rw [List.mem_singleton.mp h2]; exact he
    | some i =>
      rw [hl] at hx
      dsimp only [appendDescAt] at hx
      cases hg : m.get? i with
      | none => rw [hg] at hx; exact hm x hx
      | some p =>
        rw [hg] at hx
        dsimp only at hx
        rcases List.mem_or_eq_of_mem_set hx with h1 | h2
        · exact hm x h1
        · rw [h2]; exact strApp_nl_ne_empty _ _

theorem mergeFold_desc_ne :
    ∀ (es acc : List Entry), (∀ x ∈ acc, x.description ≠ "") →
      (∀ e ∈ es, e.description ≠ "") →
      ∀ x ∈ es.foldl mergeStep acc, x.description ≠ "" := by
  intro es
  induction es with
  | nil => intro acc hacc _ x hx; exact hacc x hx
  | cons e rest ih =>
    intro acc hacc hes x hx
    rw [List.foldl_cons] at hx
    exact ih (mergeStep acc e)
      (mergeStep_desc_ne acc e hacc (hes e (List.mem_cons_self e rest)))
      (fun e' he' => hes e' (List.mem_cons_of_mem e he')) x hx

/-! ## Lemmas on the nested-list scanner -/

theorem mlt_openUl (rest : List Char) :
    matchListTag ('<' :: 'u' :: 'l' :: '>' :: rest) = some ⟨false, TKind.list, true, 4⟩ := rfl

theorem mlt_openOl (rest : List Char) :
    matchListTag ('<' :: 'o' :: 'l' :: '>' :: rest) = some ⟨false, TKind.list, true, 4⟩ := rfl

theorem mlt_openLi (rest : List Char) :
    matchListTag ('<' :: 'l' :: 'i' :: '>' :: rest) = some ⟨false, TKind.item, true, 4⟩ := rfl

theorem mlt_closeUl (rest : List Char) :
    matchListTag ('<' :: '/' :: 'u' :: 'l' :: '>' :: rest) = some ⟨true, TKind.list, true, 5⟩ := rfl

theorem mlt_closeOl (rest : List Char) :
    matchListTag ('<' :: '/' :: 'o' :: 'l' :: '>' :: rest) = some ⟨true, TKind.list, true, 5⟩ := rfl

theorem mlt_closeLi (rest : List Char) :
    matchListTag ('<' :: '/' :: 'l' :: 'i' :: '>' :: rest) = some ⟨true, TKind.item, true, 5⟩ := rfl

theorem mlt_not_lt {c : Char} (rest : List Char) (h : c ≠ '<') :
    matchListTag (c :: rest) = none := by
  simp [matchListTag, h]

theorem matchListTag_len_pos {cs : List Char} {m : TagM} (h : matchListTag cs = some m) :
    1 ≤ m.len := by
  unfold matchListTag at h
  split at h
  · split at h
    · split at h
      · obtain ⟨p, _, hm⟩ := Option.map_eq_some'.mp h
        rw [← hm]
        dsimp only
        omega
      · obtain ⟨p, _, hm⟩ := Option.map_eq_some'.mp h
        rw [← hm]
        dsimp only
        omega
    · simp at h
  · simp at h

theorem lisRun_nil : ∀ (f : Nat) (st : LiState), lisRun f [] st = st := by
  intro f st
  cases f <;> rfl

theorem lisRun_fuel : ∀ (f g : Nat) (cs : List Char) (st : LiState),
    cs.length ≤ f → cs.length ≤ g → lisRun f cs st = lisRun g cs st := by
  intro f
  induction f with
  | zero =>
    intro g cs st hf _
    have hnil : cs = [] := List.length_eq_zero.mp (Nat.le_zero.mp hf)
    subst hnil
    rw [lisRun_nil, lisRun_nil]
  | succ f ih =>
    intro g cs st hf hg
    cases cs with
    | nil => rw [lisRun_nil, lisRun_nil]
    | cons c rest =>
      cases g with
      | zero => simp at hg
      | succ g' =>
        unfold lisRun
        cases hm : matchListTag (c :: rest) with
        | some m =>
          dsimp only
          apply ih
          · have hp := matchListTag_len_pos hm
            rw [List.length_drop]
            simp only [List.length_cons] at hf ⊢
            omega
          · have hp := matchListTag_len_pos hm
            rw [List.length_drop]
            simp only [List.length_cons] at hg ⊢
            omega
        | none =>
          dsimp only
          apply ih
          · simpa using Nat.le_of_succ_le_succ hf
          · simpa using Nat.le_of_succ_le_succ hg

theorem runLis_tag {cs : List Char} {m : TagM} (st : LiState) (h : matchListTag cs = some m) :
    runLis cs st = runLis (cs.drop m.len) (liTagStep st m (cs.take m.len)) := by
  cases cs with
  | nil => simp [matchListTag] at h
  | cons c rest =>
    show lisRun (c :: rest).length (c :: rest) st = _
    rw [show (c :: rest).length = rest.length + 1 from rfl]
    unfold lisRun
    rw [h]
    dsimp only
    apply lisRun_fuel
    · have hp := matchListTag_len_pos h
      rw [List.length_drop]
      simp only [List.length_cons]
      omega
    · exact Nat.le_refl _

theorem runLis_chr {c : Char} (rest : List Char) (st : LiState)
    (h : matchListTag (c :: rest) = none) :
    runLis (c :: rest) st = runLis rest (liChrStep st c) := by
  show lisRun (c :: rest).length (c :: rest) st = _
  rw [show (c :: rest).length = rest.length + 1 from rfl]
  unfold lisRun
  rw [h]
  dsimp only [runLis]

theorem liChrStep_cap (it : List (List Char)) (d ld : Int) (buf : List Char) (c : Char) :
    liChrStep ⟨it, d, ld, true, buf⟩ c = ⟨it, d, ld, true, buf ++ [c]⟩ := by
  simp [liChrStep]

theorem chrFold_capturing : ∀ (cs : List Char) (it : List (List Char)) (d ld : Int)
    (buf : List Char),
    cs.foldl liChrStep ⟨it, d, ld, true, buf⟩ = ⟨it, d, ld, true, buf ++ cs⟩ := by
  intro cs
  induction cs with
  | nil => intro it d ld buf; simp
  | cons c rest ih =>
    intro it d ld buf
    rw [List.foldl_cons, liChrStep_cap, ih]
    simp

theorem runLis_text : ∀ (cs : List Char), (∀ ch ∈ cs, ch ≠ '<') →
    ∀ (rest : List Char) (st : LiState),
    runLis (cs ++ rest) st = runLis rest (cs.foldl liChrStep st) := by
  intro cs
  induction cs with
  | nil => intro _ rest st; simp
  | cons c cs' ih =>
    intro hno rest st
    rw [List.cons_append,
      runLis_chr (cs' ++ rest) st (mlt_not_lt _ (hno c (List.mem_cons_self c cs'))),
      ih (fun ch hm => hno ch (List.mem_cons_of_mem c hm)) rest (liChrStep st c),
      List.foldl_cons]

/-! State-update lemmas for each tag shape, stated on literal states so that
successive rewrites stay in constructor form. -/

theorem liTagStep_openList_cap (it : List (List Char)) (d ld : Int) (buf : List Char)
    (imm : Bool) (len : Nat) (consumed : List Char) :
    liTagStep ⟨it, d, ld, true, buf⟩ ⟨false, TKind.list, imm, len⟩ consumed =
      ⟨it, d + 1, ld, true, buf ++ consumed⟩ := by
  simp [liTagStep]

theorem liTagStep_openList_noncap (it : List (List Char)) (d ld : Int) (buf : List Char)
    (imm : Bool) (len : Nat) (consumed : List Char) :
    liTagStep ⟨it, d, ld, false, buf⟩ ⟨false, TKind.list, imm, len⟩ consumed =
      ⟨it, d + 1, ld, false, buf⟩ := by
  simp [liTagStep]

theorem liTagStep_closeList_cap (it : List (List Char)) (d ld : Int) (buf : List Char)
    (len : Nat) (consumed : List Char) :
    liTagStep ⟨it, d, ld, true, buf⟩ ⟨true, TKind.list, true, len⟩ consumed =
      ⟨it, d - 1, ld, true, buf ++ consumed⟩ := by
  simp [liTagStep]

theorem liTagStep_closeList_noncap (it : List (List Char)) (d ld : Int) (buf : List Char)
    (len : Nat) (consumed : List Char) :
    liTagStep ⟨it, d, ld, false, buf⟩ ⟨true, TKind.list, true, len⟩ consumed =
      ⟨it, d - 1, ld, false, buf⟩ := by
  simp [liTagStep]

theorem liTagStep_openLi_cap (it : List (List Char)) (d ld : Int) (buf : List Char)
    (imm : Bool) (len : Nat) (consumed : List Char) :
    liTagStep ⟨it, d, ld, true, buf⟩ ⟨false, TKind.item, imm, len⟩ consumed =
      ⟨it, d, ld, true, buf ++ consumed⟩ := by
  simp [liTagStep]

theorem liTagStep_openLi_start (it : List (List Char)) (ld : Int) (buf : List Char)
    (imm : Bool) (len : Nat) (consumed : List Char) :
    liTagStep ⟨it, 1, ld, false, buf⟩ ⟨false, TKind.item, imm, len⟩ consumed =
      ⟨it, 1, 1, true, []⟩ := by
  simp [liTagStep]

theorem liTagStep_closeLi_cap_ne (it : List (List Char)) (d ld : Int) (buf : List Char)
    (len : Nat) (consumed : List Char) (hne : ¬d = ld) :
    liTagStep ⟨it, d, ld, true, buf⟩ ⟨true, TKind.item, true, len⟩ consumed =
      ⟨it, d, ld, true, buf ++ consumed⟩ := by
  simp [liTagStep, hne]

theorem liTagStep_closeLi_emit (it : List (List Char)) (d : Int) (buf : List Char)
    (len : Nat) (consumed : List Char) :
    liTagStep ⟨it, d, d, true, buf⟩ ⟨true, TKind.item, true, len⟩ consumed =
      ⟨it ++ [buf], d, d, false, []⟩ := by
  simp [liTagStep]

/-! One-step run lemmas for the canonical tags. -/

theorem runLis_step_openUl (T : List Char) (st : LiState) :
    runLis ('<' :: 'u' :: 'l' :: '>' :: T) st =
      runLis T (liTagStep st ⟨false, TKind.list, true, 4⟩ ['<', 'u', 'l', '>']) := by
  simpa using runLis_tag st (mlt_openUl T)

theorem runLis_step_openOl (T : List Char) (st : LiState) :
    runLis ('<' :: 'o' :: 'l' :: '>' :: T) st =
      runLis T (liTagStep st ⟨false, TKind.list, true, 4⟩ ['<', 'o', 'l', '>']) := by
  simpa using runLis_tag st (mlt_openOl T)

theorem runLis_step_openLi (T : List Char) (st : LiState) :
    runLis ('<' :: 'l' :: 'i' :: '>' :: T) st =
      runLis T (liTagStep st ⟨false, TKind.item, true, 4⟩ ['<', 'l', 'i', '>']) := by
  simpa using runLis_tag st (mlt_openLi T)

theorem runLis_step_closeUl (T : List Char) (st : LiState) :
    runLis ('<' :: '/' :: 'u' :: 'l' :: '>' :: T) st =
      runLis T (liTagStep st ⟨true, TKind.list, true, 5⟩ ['<', '/', 'u', 'l', '>']) := by
  simpa using runLis_tag st (mlt_closeUl T)

theorem runLis_step_closeOl (T : List Char) (st : LiState) :
    runLis ('<' :: '/' :: 'o' :: 'l' :: '>' :: T) st =
      runLis T (liTagStep st ⟨true, TKind.list, true, 5⟩ ['<', '/', 'o', 'l', '>']) := by
  simpa using runLis_tag st (mlt_closeOl T)

theorem runLis_step_closeLi (T : List Char) (st : LiState) :
    runLis ('<' :: '/' :: 'l' :: 'i' :: '>' :: T) st =
      runLis T (liTagStep st ⟨true, TKind.item, true, 5⟩ ['<', '/', 'l', 'i', '>']) := by
  simpa using runLis_tag st (mlt_closeLi T)

/-! Inside an open capture the scanner copies an entire well-formed
node/content/item-list into the buffer and returns to its starting depth:
nested list items do not open or close a capture. -/

mutual

theorem scanNode : ∀ (n : HNode), nodeOk n = true →
    ∀ (it : List (List Char)) (d : Int) (buf rest : List Char), 1 ≤ d →
      runLis (serNode n ++ rest) ⟨it, d, 1, true, buf⟩ =
        runLis rest ⟨it, d, 1, true, buf ++ serNode n⟩
  | HNode.txt s, h => by
    intro it d buf rest _
    have hno : ∀ ch ∈ s.data, ch ≠ '<' := by simpa [nodeOk] using h
    rw [show serNode (HNode.txt s) = s.data from rfl, runLis_text s.data hno rest _,
      chrFold_capturing s.data it d 1 buf]
  | HNode.list b its, h => by
    intro it d buf rest hdep
    have hits : itemsOk its = true := by simpa [nodeOk] using h
    cases b with
    | true =>
      rw [show serNode (HNode.list true its) =
        ['<', 'u', 'l', '>'] ++ serItems its ++ ['<', '/', 'u', 'l', '>'] from rfl]
      simp only [List.append_assoc, List.cons_append, List.nil_append]
      rw [runLis_step_openUl, liTagStep_openList_cap,
        scanItemsCap its hits it (d + 1) _ _ (by omega),
        runLis_step_closeUl, liTagStep_closeList_cap]
      congr 1
      simp [List.append_assoc]
    | false =>
      rw [show serNode (HNode.list false its) =
        ['<', 'o', 'l', '>'] ++ serItems its ++ ['<', '/', 'o', 'l', '>'] from rfl]
      simp only [List.append_assoc, List.cons_append, List.nil_append]
      rw [runLis_step_openOl, liTagStep_openList_cap,
        scanItemsCap its hits it (d + 1) _ _ (by omega),
        runLis_step_closeOl, liTagStep_closeList_cap]
      congr 1
      simp [List.append_assoc]

theorem scanContent : ∀ (c : HContent), contentOk c = true →
    ∀ (it : List (List Char)) (d : Int) (buf rest : List Char), 1 ≤ d →
      runLis (serContent c ++ rest) ⟨it, d, 1, true, buf⟩ =
        runLis rest ⟨it, d, 1, true, buf ++ serContent c⟩
  | HContent.hnil, _ => by
    intro it d buf rest _
    simp [serContent]
  | HContent.hcons n r, h => by
    intro it d buf rest hdep
    obtain ⟨hn, hr⟩ : nodeOk n = true ∧ contentOk r = true := by
      simpa [contentOk, Bool.and_eq_true] using h
    rw [show serContent (HContent.hcons n r) = serNode n ++ serContent r from rfl,
      List.append_assoc, scanNode n hn it d buf _ hdep,
      scanContent r hr it d _ rest hdep]
    congr 1
    simp [List.append_assoc]

theorem scanItemsCap : ∀ (its : HItems), itemsOk its = true →
    ∀ (it : List (List Char)) (d : Int) (buf rest : List Char), 2 ≤ d →
      runLis (serItems its ++ rest) ⟨it, d, 1, true, buf⟩ =
        runLis rest ⟨it, d, 1, true, buf ++ serItems its⟩
  | HItems.inil, _ => by
    intro it d buf rest _
    simp [serItems]
  | HItems.icons c r, h => by
    intro it d buf rest hdep
    obtain ⟨hc, hr⟩ : contentOk c = true ∧ itemsOk r = true := by
      simpa [itemsOk, Bool.and_eq_true] using h
    rw [show serItems (HItems.icons c r) =
      ['<', 'l', 'i', '>'] ++ serContent c ++ ['<', '/', 'l', 'i', '>'] ++ serItems r from rfl]
    simp only [List.append_assoc, List.cons_append, List.nil_append]
    rw [runLis_step_openLi, liTagStep_openLi_cap,
      scanContent c hc it d _ _ (by omega),
      runLis_step_closeLi, liTagStep_closeLi_cap_ne _ _ _ _ _ _ (by omega),
      scanItemsCap r hr it d _ rest hdep]
    congr 1
    simp [List.append_assoc]

end

/-! The top-level loop: with no capture open at depth 1, each serialised
item contributes exactly its own content as one captured slice. -/

theorem scanItemsTop : ∀ (its : HItems), itemsOk its = true →
    ∀ (it : List (List Char)) (ld : Int) (buf rest : List Char),
    ∃ it2 ld2 buf2, runLis (serItems its ++ rest) ⟨it, 1, ld, false, buf⟩ =
        runLis rest ⟨it2, 1, ld2, false, buf2⟩ ∧
      it2 = it ++ itemContentsL its
  | HItems.inil, _ => by
    intro it ld buf rest
    exact ⟨it, ld, buf, by simp [serItems], by simp [itemContentsL]⟩
  | HItems.icons c r, h => by
    intro it ld buf rest
    obtain ⟨hc, hr⟩ : contentOk c = true ∧ itemsOk r = true := by
      simpa [itemsOk, Bool.and_eq_true] using h
    rw [show serItems (HItems.icons c r) =
      ['<', 'l', 'i', '>'] ++ serContent c ++ ['<', '/', 'l', 'i', '>'] ++ serItems r from rfl]
    simp only [List.append_assoc, List.cons_append, List.nil_append]
    rw [runLis_step_openLi, liTagStep_openLi_start,
      scanContent c hc it 1 [] _ (by omega),
      runLis_step_closeLi, liTagStep_closeLi_emit]
    obtain ⟨it2, ld2, buf2, heq, hitems⟩ :=
      scanItemsTop r hr (it ++ [[] ++ serContent c]) 1 [] rest
    refine ⟨it2, ld2, buf2, heq, ?_⟩
    rw [hitems]
    simp [itemContentsL, List.append_assoc]

/-! ## Claim theorems -/

/-- Claim C1.  For every balanced list fragment — a complete `ul` or `ol`
list generated by the tree grammar, with arbitrarily nested sub-lists —
`extractTopLevelLis` returns exactly one item per direct child `li` of the
outermost list, in document order, and each returned item is the full
serialised content of that child, nested sub-lists included verbatim;
nested list items never independently open a capture. -/
theorem extractTopLevelLis_direct_children (b : Bool) (its : HItems)
    (h : itemsOk its = true) :
    extractTopLevelLis (String.mk (serNode (HNode.list b its))) =
      (itemContentsL its).map String.mk := by
  have e0 : extractTopLevelLis (String.mk (serNode (HNode.list b its))) =
      ((runLis (serNode (HNode.list b its)) initLiState).items).map String.mk := rfl
  have h01 : (0 : Int) + 1 = 1 := by decide
  rw [e0]
  cases b with
  | true =>
    rw [show serNode (HNode.list true its) =
      ['<', 'u', 'l', '>'] ++ serItems its ++ ['<', '/', 'u', 'l', '>'] from rfl,
      show initLiState = (⟨[], 0, 0, false, []⟩ : LiState) from rfl]
    simp only [List.append_assoc, List.cons_append, List.nil_append]
    rw [runLis_step_openUl, liTagStep_openList_noncap, h01]
    obtain ⟨it2, ld2, buf2, heq, hitems⟩ :=
      scanItemsTop its h [] 0 [] ['<', '/', 'u', 'l', '>']
    rw [heq, runLis_step_closeUl, liTagStep_closeList_noncap,
      show runLis [] (⟨it2, 1 - 1, ld2, false, buf2⟩ : LiState) =
        ⟨it2, 1 - 1, ld2, false, buf2⟩ from rfl]
    dsimp only
    rw [hitems]
    simp
  | false =>
    rw [show serNode (HNode.list false its) =
      ['<', 'o', 'l', '>'] ++ serItems its ++ ['<', '/', 'o', 'l', '>'] from rfl,
      show initLiState = (⟨[], 0, 0, false, []⟩ : LiState) from rfl]
    simp only [List.append_assoc, List.cons_append, List.nil_append]
    rw [runLis_step_openOl, liTagStep_openList_noncap, h01]
    obtain ⟨it2, ld2, buf2, heq, hitems⟩ :=
      scanItemsTop its h [] 0 [] ['<', '/', 'o', 'l', '>']
    rw [heq, runLis_step_closeOl, liTagStep_closeList_noncap,
      show runLis [] (⟨it2, 1 - 1, ld2, false, buf2⟩ : LiState) =
        ⟨it2, 1 - 1, ld2, false, buf2⟩ from rfl]
    dsimp only
    rw [hitems]
    simp

/-- Witness for claim C1 at a concrete input: a two-item list whose first
item contains a nested sub-list; the nested item stays inside its parent's
captured content. -/
theorem extractTopLevelLis_direct_children_witness :
    extractTopLevelLis (String.mk (serNode (HNode.list true sampleItems))) =
      (itemContentsL sampleItems).map String.mk ∧
    String.mk (serNode (HNode.list true sampleItems)) =
      "<ul><li>A<ul><li>B</li></ul></li><li>C</li></ul>" ∧
    (itemContentsL sampleItems).map String.mk = ["A<ul><li>B</li></ul>", "C"] :=
  ⟨extractTopLevelLis_direct_children true sampleItems (by decide), by decide, by decide⟩

/-- Claim C2, counterexample.  The filter `r32` matches the recorded
version `r32.1` under the spec's dotted-prefix rule, yet the scoped merge
of `main` keeps the `r32.1` record: the removal predicate is an exact
case-insensitive comparison, not a prefix match. -/
theorem scopedMerge_keeps_dotted_suffix :
    specVersionMatches "r32" "r32.1" = true ∧
    scopedMergeOutput [entryR321] "r32" [] = [entryR321] := by
  exact ⟨by decide, by decide⟩

/-- Claim C2, amended.  On a scoped run the merger keeps exactly the
previously persisted records whose lower-cased version differs from the
filter — an exact match, not a dotted-prefix match — unchanged and in their
original order, and appends the newly computed records. -/
theorem scopedMerge_exact_match_only (ex : List Entry) (v : String) (new : List Entry) :
    scopedMergeOutput ex v new =
      ex.filter (fun e => String.mk (lowerList e.version.data) ≠ v) ++ new ∧
    (∀ e, e ∈ scopedMergeOutput ex v new ↔
      e ∈ new ∨ (e ∈ ex ∧ String.mk (lowerList e.version.data) ≠ v)) ∧
    (ex.filter (fun e => String.mk (lowerList e.version.data) ≠ v)).Sublist ex := by
  refine ⟨rfl, ?_, List.filter_sublist ex⟩
  intro e
  simp only [scopedMergeOutput, List.mem_append, List.mem_filter, decide_eq_true_eq]
  tauto

/-- Witness for the amended claim C2 at a concrete input. -/
theorem scopedMerge_exact_match_only_witness :
    scopedMergeOutput [entryR321] "r32" [] =
      [entryR321].filter (fun e => String.mk (lowerList e.version.data) ≠ "r32") ++ [] ∧
    (∀ e, e ∈ scopedMergeOutput [entryR321] "r32" [] ↔
      e ∈ ([] : List Entry) ∨ (e ∈ [entryR321] ∧ String.mk (lowerList e.version.data) ≠ "r32")) ∧
    ([entryR321].filter (fun e => String.mk (lowerList e.version.data) ≠ "r32")).Sublist
      [entryR321] :=
  scopedMerge_exact_match_only [entryR321] "r32" []

/-- Claim C3, counterexample.  Extracting the same content twice with no
forced refresh issues exactly one external call, but the second value is
the cached object `{ version, ...parsed }` while the first is the raw
parsed payload: the two returned values are not equal. -/
theorem aiCache_second_result_differs :
    (extractWithAI oracleOk false id ⟨[], 0⟩ "content" "r32").2.calls = 1 ∧
    (extractWithAI oracleOk false id
        (extractWithAI oracleOk false id ⟨[], 0⟩ "content" "r32").2 "content" "r32").2.calls = 1 ∧
    (extractWithAI oracleOk false id ⟨[], 0⟩ "content" "r32").1 = Except.ok aiRetFresh ∧
    (extractWithAI oracleOk false id
        (extractWithAI oracleOk false id ⟨[], 0⟩ "content" "r32").2 "content" "r32").1 =
      Except.ok aiRetCached ∧
    aiRetFresh ≠ aiRetCached := by
  refine ⟨rfl, rfl, rfl, rfl, by decide⟩

/-- Claim C3, amended.  With no forced refresh and a cold cache for the
content, a second extraction of the same content issues no further external
call (the call count stays at one more than before and the state is
unchanged); the second value is the cached copy of the first, equal to it
on `build`, `starter_build`, `released` and `entries` but additionally
tagged with the section version. -/
theorem extractWithAI_cache_round_trip
    (oracle : String → Except String AIParsed) (toMd : String → String)
    (st0 : AIState) (html v : String) (parsed : AIParsed)
    (hor : oracle (toMd html) = Except.ok parsed)
    (hmiss : lookupCache st0.cache (cacheKey (toMd html)) = none) :
    (extractWithAI oracle false toMd st0 html v).2.calls = st0.calls + 1 ∧
    (extractWithAI oracle false toMd st0 html v).1 = Except.ok (retOfParsed parsed) ∧
    (extractWithAI oracle false toMd (extractWithAI oracle false toMd st0 html v).2 html v).2 =
      (extractWithAI oracle false toMd st0 html v).2 ∧
    (extractWithAI oracle false toMd (extractWithAI oracle false toMd st0 html v).2 html v).1 =
      Except.ok { retOfParsed parsed with version := some v } := by
  have h1 : extractWithAI oracle false toMd st0 html v =
      (Except.ok (retOfParsed parsed),
        ⟨upsert st0.cache (cacheKey (toMd html))
          { retOfParsed parsed with version := some v }, st0.calls + 1⟩) := by
    simp only [extractWithAI, hmiss, hor]
  have h2 : extractWithAI oracle false toMd
      (⟨upsert st0.cache (cacheKey (toMd html))
          { retOfParsed parsed with version := some v }, st0.calls + 1⟩ : AIState) html v =
      (Except.ok { retOfParsed parsed with version := some v },
        ⟨upsert st0.cache (cacheKey (toMd html))
          { retOfParsed parsed with version := some v }, st0.calls + 1⟩) := by
    simp only [extractWithAI, lookup_upsert]
  rw [h1]
  exact ⟨rfl, rfl, by rw [h2], by rw [h2]⟩

/-- Witness for the amended claim C3 at a concrete input. -/
theorem extractWithAI_cache_round_trip_witness :
    (extractWithAI oracleOk false id ⟨[], 0⟩ "content" "r32").2.calls = 0 + 1 ∧
    (extractWithAI oracleOk false id ⟨[], 0⟩ "content" "r32").1 =
      Except.ok (retOfParsed ⟨"234682", "234683", "December 10th 2025",
        [⟨"Bug Fixes", "DSOF-1", "fix"⟩]⟩) ∧
    (extractWithAI oracleOk false id
        (extractWithAI oracleOk false id ⟨[], 0⟩ "content" "r32").2 "content" "r32").2 =
      (extractWithAI oracleOk false id ⟨[], 0⟩ "content" "r32").2 ∧
    (extractWithAI oracleOk false id
        (extractWithAI oracleOk false id ⟨[], 0⟩ "content" "r32").2 "content" "r32").1 =
      Except.ok { retOfParsed ⟨"234682", "234683", "December 10th 2025",
        [⟨"Bug Fixes", "DSOF-1", "fix"⟩]⟩ with version := some "r32" } :=
  extractWithAI_cache_round_trip oracleOk id ⟨[], 0⟩ "content" "r32"
    ⟨"234682", "234683", "December 10th 2025", [⟨"Bug Fixes", "DSOF-1", "fix"⟩]⟩ rfl rfl

/-- Claim C4.  In the orphan-merge pass (`mergeOrphans`, the fold of
`mergeStep` from the empty list), an entry without ticket ids facing a
non-empty accumulated list is either appended, newline-joined, to the
description of the eligible entry with the greatest index — eligible
meaning it has ticket ids and shares the orphan's version and category, and
no later entry is eligible, i.e. the nearest preceding one — or, when no
entry is eligible, kept as a standalone entry. -/
theorem mergeStep_orphan_nearest (m : List Entry) (e : Entry)
    (hd : e.dsof = "") (hm : m ≠ []) :
    (∃ i, ∃ hi : i < m.length, eligible (m.get ⟨i, hi⟩) e = true ∧
        (∀ j, ∀ hj : j < m.length, i < j → eligible (m.get ⟨j, hj⟩) e = false) ∧
        mergeStep m e = m.set i
          { m.get ⟨i, hi⟩ with
              description := (m.get ⟨i, hi⟩).description ++ "\n" ++ e.description }) ∨
    ((∀ j, ∀ hj : j < m.length, eligible (m.get ⟨j, hj⟩) e = false) ∧
      mergeStep m e = m ++ [e]) := by
  have hcond : ¬(e.dsof ≠ "" ∨ m.isEmpty = true) := by
    rintro (h | h)
    · exact h hd
    · exact hm (List.isEmpty_iff.mp h)
  unfold mergeStep
  rw [if_neg hcond]
  cases hle : lastEligibleIdx m e with
  | some i =>
    left
    obtain ⟨hi, hel, hmax⟩ := lastEligible_some_spec m e i hle
    refine ⟨i, hi, hel, hmax, ?_⟩
    dsimp only [appendDescAt]
    rw [List.get?_eq_get hi]
  | none =>
    right
    exact ⟨lastEligible_none_spec m e hle, rfl⟩

/-- Witness for claim C4 at a concrete input: the orphan `y` is folded into
the preceding ticketed entry `x`. -/
theorem mergeStep_orphan_nearest_witness :
    mergeStep [parentEnt] orphanEnt = [{ parentEnt with description := "x\ny" }] := by
  have h := mergeStep_orphan_nearest [parentEnt] orphanEnt rfl (by decide)
  rcases h with ⟨i, hi, _, _, heq⟩ | ⟨hall, _⟩
  · have hi0 : i = 0 := Nat.lt_one_iff.mp (by simpa using hi)
    subst hi0
    have h0 : [parentEnt].get ⟨0, hi⟩ = parentEnt := rfl
    rw [h0] at heq
    rw [heq]
    decide
  · exact absurd (hall 0 (by decide)) (by decide)

/-- Claim C5, counterexample.  A full run over the scenario page persists
two records that carry the same version: the output is the flat entry list,
not one aggregated Release record per distinct version with a `changes`
array. -/
theorem output_not_one_record_per_version :
    fullRunOutput (parseReleasePageNoAI pageC8 pathC8) = [entryC8a, entryC8b] ∧
    entryC8a.version = entryC8b.version ∧ entryC8a ≠ entryC8b := by
  exact ⟨by decide, rfl, by decide⟩

/-- Claim C5, amended.  The persisted output of a full run is the gathered
flat entry list itself — one record per change, in insertion order, each of
shape version/category/ticket-ids/description/url (plus build,
starter-build and release date on the structured path) — with no
aggregation into per-version Release records. -/
theorem output_flat_entries (es : List Entry) :
    fullRunOutput es = es := rfl

/-- Claim C6.  When the external extraction of a section fails, the section
is replaced, section-locally, by the pattern-based extractor applied
independently to each of its category sub-ranges, and the loop continues
with the remaining sections. -/
theorem aiFailure_section_scoped_fallback
    (oracle : String → Except String AIParsed) (force : Bool) (toMd : String → String)
    (pagePath : String) (sec : VSection) (rest : List VSection)
    (st st' : AIState) (entries : List Entry) (msg : String)
    (hhtml : sec.html ≠ "")
    (hfail : extractWithAI oracle force toMd st sec.html sec.version = (Except.error msg, st')) :
    processSections oracle force toMd pagePath (sec :: rest) (st, entries) =
      processSections oracle force toMd pagePath rest
        (st', regexFallbackParts sec.version sec.parts entries) := by
  unfold processSections
  rw [List.foldl_cons]
  congr 1
  dsimp only
  rw [if_neg hhtml, hfail]

/-- Witness for claim C6 at a concrete input: a failing service call on a
section with two category sub-ranges. -/
theorem aiFailure_section_scoped_fallback_witness :
    processSections oracleFail false id "/designer/release-notes/r31" [secC6] (⟨[], 0⟩, []) =
      processSections oracleFail false id "/designer/release-notes/r31" []
        (⟨[], 1⟩, regexFallbackParts "r31" secC6.parts []) :=
  aiFailure_section_scoped_fallback oracleFail false id "/designer/release-notes/r31"
    secC6 [] ⟨[], 0⟩ ⟨[], 1⟩ [] "AI API error 500" (by decide) rfl

/-- Claim C7, counterexample.  Invoked with no AI token and without
`--no-ai`, the program does not exit: it proceeds with the AI path disabled
and a warning printed. -/
theorem missing_token_does_not_exit :
    startup none false = RunStart.proceed false true ∧
    RunStart.proceed false true ≠ RunStart.exitCode 1 := by
  exact ⟨rfl, by decide⟩

/-- Claim C7, amended.  Missing authentication with `--no-ai` unset is
never fatal: startup always proceeds, warning exactly when the token is
absent and the flag unset, with the AI path enabled exactly when the flag
is unset and the token present; the only explicit fail-fast before any work
in `main` is a version filter that matches no release page. -/
theorem startup_never_exits
    (aiToken : Option String) (noAI : Bool) (v : String) (paths : List String)
    (hempty : filterPathsForVersion v paths = []) :
    startup aiToken noAI = RunStart.proceed (!noAI && aiToken.isSome) (aiToken.isNone && !noAI) ∧
    scopedPathCheck v paths = Except.error 1 := by
  refine ⟨rfl, ?_⟩
  unfold scopedPathCheck
  rw [hempty]
  rfl

/-- Witness for the amended claim C7 at a concrete input. -/
theorem startup_never_exits_witness :
    startup none false = RunStart.proceed (!false && (none : Option String).isSome)
      ((none : Option String).isNone && !false) ∧
    scopedPathCheck "r99" ["/designer/release-notes/r14"] = Except.error 1 :=
  startup_never_exits none false "r99" ["/designer/release-notes/r14"] (by decide)

/-- Claim C8, counterexample.  On the scenario page, the first item of the
two-item list yields no ticket id and keeps its full text as description:
the code's ticket pattern is the fixed `DSOF-\d+`, which `T-100` does not
match, so the claimed change `(T-100, crash on load)` is not produced. -/
theorem e2e_ticket_pattern_counterexample :
    parseReleasePageNoAI pageC8 pathC8 = [entryC8a, entryC8b] ∧
    entryC8a.dsof ≠ "T-100" ∧ entryC8a.description ≠ "crash on load" := by
  exact ⟨by decide, by decide, by decide⟩

/-- Claim C8, amended.  The scenario page yields, for version `r32.1` and
category `Bug Fixes`, exactly the two changes
`(ticket-ids:"", "Fixed T-100: crash on load")` and
`(ticket-ids:"", "Improved startup time")` on the pattern-fallback path. -/
theorem e2e_actual_entries :
    parseReleasePageNoAI pageC8 pathC8 = [entryC8a, entryC8b] ∧
    entryC8a.version = "r32.1" ∧ entryC8a.category = "Bug Fixes" ∧
    entryC8b.version = "r32.1" ∧ entryC8b.category = "Bug Fixes" := by
  exact ⟨by decide, rfl, rfl, rfl, rfl⟩

/-- Claim C9, counterexample.  List content that appears before any heading
is extracted with an empty version, although the page path
`/designer/release-notes/r30` yields the fallback version `r30`: the
fallback is applied only when a versionless `h2` heading precedes the
content, not to content before any heading. -/
theorem pre_heading_content_empty_version :
    (parseReleasePageNoAI pageC9 pathC9).map Entry.version = [""] ∧
    pageVersionOf pathC9 = "r30" := by
  exact ⟨by decide, by decide⟩

/-- Claim C9, amended.  Content preceded by an `h2` heading that carries no
version token, before any version heading, is attributed to the page-level
fallback version; content before any `h2` heading keeps the empty
version. -/
theorem unversioned_h2_uses_page_version
    (pv : String) (st : SegSt) (part full inner : List Char)
    (hfind : findHeadElem '2' part = some (full, inner))
    (hnov : findVersionToken (cleanText inner) = none)
    (hcur : st.version = "") (hpv : pv ≠ "") :
    (headingStep pv st part).version = pv := by
  simp only [headingStep, hfind, hnov]
  cases findHeadElem '3' part with
  | none => simp [hcur, hpv]
  | some p => simp [hcur, hpv]

/-- Witness for the amended claim C9 at a concrete input. -/
theorem unversioned_h2_uses_page_version_witness :
    (headingStep "r30" ⟨"", "", ""⟩ "<h2>Overview</h2><ul><li>x</li></ul>".data).version =
      "r30" :=
  unversioned_h2_uses_page_version "r30" ⟨"", "", ""⟩
    "<h2>Overview</h2><ul><li>x</li></ul>".data "<h2>Overview</h2>".data "Overview".data
    (by decide) (by decide) rfl (by decide)

/-- Claim C10.  Every entry emitted by the pipeline has a non-empty
description: the pattern-based extractor preserves the invariant (items
whose cleaned text is empty are skipped entirely, and when the clean-up
empties a description the full item text is used instead); the structured
path skips returned entries whose description is empty; and the
orphan-merge pass preserves the invariant. -/
theorem emitted_descriptions_nonempty :
    (∀ sc v c u es, (∀ e ∈ es, e.description ≠ "") →
      ∀ e ∈ extractWithRegex sc v c u es, e.description ≠ "") ∧
    (∀ v c u raw, cleanText raw = [] → liEntryOf v c u raw = none) ∧
    (∀ text : List Char, text ≠ [] →
      descOf text ≠ [] ∧ (cleanedDesc text = [] → descOf text = text)) ∧
    (∀ sv su r, ∀ e ∈ aiEntriesFor sv su r, e.description ≠ "") ∧
    (∀ es, (∀ e ∈ es, e.description ≠ "") →
      ∀ e ∈ mergeOrphans es, e.description ≠ "") := by
  refine ⟨?_, ?_, ?_, ?_, ?_⟩
  · intro sc v c u es hes e he
    exact ewrGo_desc_ne sc.data v c u _ 0 es hes e he
  · intro v c u raw hraw
    unfold liEntryOf
    simp [hraw, List.isEmpty_iff]
  · intro text ht
    refine ⟨descOf_ne_nil ht, ?_⟩
    intro hcd
    unfold descOf
    simp [hcd]
  · intro sv su r e he
    obtain ⟨src, _, hsrc⟩ := List.mem_filterMap.mp he
    by_cases hd : src.description = ""
    · simp [hd] at hsrc
    · simp only [hd, if_neg, if_false, Option.some.injEq] at hsrc
      rw [← hsrc]
      exact hd
  · intro es hes e he
    exact mergeFold_desc_ne es [] (by intro x hx; simp at hx) hes e he

/-- Witness for claim C10 at a concrete input: cleaning `DSOF-123` empties
the description, so the extractor falls back to the full item text, which
is non-empty. -/
theorem emitted_descriptions_nonempty_witness :
    descOf "DSOF-123".data ≠ [] ∧ descOf "DSOF-123".data = "DSOF-123".data := by
  have h := emitted_descriptions_nonempty.2.2.1 "DSOF-123".data (by decide)
  exact ⟨h.1, h.2 (by decide)⟩

end Scrape
